import Mathlib

/-!
Verification of the streaming-protocol core of the `ai` repository.

The repository ships the protocol implementation only as type declarations
(`packages/core/dist/index.d.ts`); the sole implementation file under source
control is `packages/core/react/use-assistant.ts`.  Consequently the protocol
components (stream-part registry, chunk decoder, event-source transformer,
callbacks transformer, AIStream error path, StreamData buffer) are modelled
from the specification, and the `use-assistant` hook is embedded directly
from its source.

Strings on the wire are modelled as `List Char`; JSON numbers are modelled as
integers (no claim depends on non-integral numeric values).
-/

set_option maxHeartbeats 1000000
set_option maxRecDepth 8000

namespace AIProto

/-! ## JSON values and their wire serialization

Modelled from the spec: the `JSONValue` type of `index.d.ts`
(`null | string | number | boolean | object | array`) together with the
`JSON.stringify` / `JSON.parse` pair used by the protocol.  The spec requires
(§3) that serialized values contain no raw newlines (they are JSON-escaped)
and that values round-trip through parse/stringify without loss. -/

inductive JSON where
  | null : JSON
  | bool (b : Bool) : JSON
  | num (n : Int) : JSON
  | str (s : List Char) : JSON
  | arr (elems : List JSON) : JSON
  | obj (members : List (List Char × JSON)) : JSON

/-- JSON string escaping: the double quote, the backslash and the newline are
escaped; every other character is emitted verbatim. -/
def escChar (c : Char) : List Char :=
  if c = '"' then ['\\', '"']
  else if c = '\\' then ['\\', '\\']
  else if c = '\n' then ['\\', 'n']
  else [c]

def escape (s : List Char) : List Char := s.flatMap escChar

def digitChar : Nat → Char
  | 0 => '0' | 1 => '1' | 2 => '2' | 3 => '3' | 4 => '4'
  | 5 => '5' | 6 => '6' | 7 => '7' | 8 => '8' | _ => '9'

def natToCharsAux : Nat → Nat → List Char
  | 0, _ => []
  | fuel+1, n => if n = 0 then [] else natToCharsAux fuel (n / 10) ++ [digitChar (n % 10)]

/-- Decimal rendering of a natural number. -/
def natToChars (n : Nat) : List Char := if n = 0 then ['0'] else natToCharsAux (n+1) n

/-- Decimal rendering of an integer. -/
def intToChars (n : Int) : List Char :=
  if n < 0 then '-' :: natToChars n.natAbs else natToChars n.natAbs

/-- The characters of the `null` literal. -/
def nullChars : List Char := ['n', 'u', 'l', 'l']

/-- The characters of the `true` literal. -/
def trueChars : List Char := ['t', 'r', 'u', 'e']

/-- The characters of the `false` literal. -/
def falseChars : List Char := ['f', 'a', 'l', 's', 'e']

mutual

/-- `JSON.stringify` over the model. -/
def stringify : JSON → List Char
  | .null => nullChars
  | .bool true => trueChars
  | .bool false => falseChars
  | .num n => intToChars n
  | .str s => '"' :: escape s ++ ['"']
  | .arr es => '[' :: stringifyElems es ++ [']']
  | .obj ms => '{' :: stringifyMembers ms ++ ['}']

def stringifyElems : List JSON → List Char
  | [] => []
  | [v] => stringify v
  | v :: vs => stringify v ++ ',' :: stringifyElems vs

def stringifyMembers : List (List Char × JSON) → List Char
  | [] => []
  | [(k, v)] => '"' :: escape k ++ '"' :: ':' :: stringify v
  | (k, v) :: ms => ('"' :: escape k ++ '"' :: ':' :: stringify v) ++ ',' :: stringifyMembers ms

end

def unescChar (c : Char) : Option Char :=
  if c = '"' then some '"'
  else if c = '\\' then some '\\'
  else if c = 'n' then some '\n'
  else none

/-- Parse the body of a JSON string literal; the flag records whether the
previous character was an unconsumed backslash. -/
def parseStrAux : Bool → List Char → Option (List Char × List Char)
  | _, [] => none
  | true, e :: rest =>
    match unescChar e with
    | some d => (parseStrAux false rest).map (fun p => (d :: p.1, p.2))
    | none => none
  | false, c :: rest =>
    if c = '"' then some ([], rest)
    else if c = '\\' then parseStrAux true rest
    else (parseStrAux false rest).map (fun p => (c :: p.1, p.2))

/-- Parse the body of a JSON string literal (the opening quote has already
been consumed); returns the decoded string and the input after the closing
quote. -/
def parseStr : List Char → Option (List Char × List Char) := parseStrAux false

def digitVal (c : Char) : Nat := c.toNat - 48

def parseNatAcc (a : Nat) (ds : List Char) : Nat := ds.foldl (fun x c => x * 10 + digitVal c) a

/-- Parse a nonempty run of decimal digits. -/
def parseNum (l : List Char) : Option (Nat × List Char) :=
  let ds := l.takeWhile Char.isDigit
  if ds = [] then none else some (parseNatAcc 0 ds, l.dropWhile Char.isDigit)

mutual

/-- `JSON.parse` over the model: fuel-indexed recursive-descent parser
returning the parsed value and the unconsumed remainder. -/
def parseVal : Nat → List Char → Option (JSON × List Char)
  | 0, _ => none
  | fuel+1, input =>
    match input with
    | [] => none
    | c :: rest =>
      if c = '-' then
        match parseNum rest with
        | some (n, r) => some (.num (-(n : Int)), r)
        | none => none
      else if c.isDigit then
        match parseNum (c :: rest) with
        | some (n, r) => some (.num (n : Int), r)
        | none => none
      else if c = 'n' then
        match rest with
        | 'u' :: 'l' :: 'l' :: r => some (.null, r)
        | _ => none
      else if c = 't' then
        match rest with
        | 'r' :: 'u' :: 'e' :: r => some (.bool true, r)
        | _ => none
      else if c = 'f' then
        match rest with
        | 'a' :: 'l' :: 's' :: 'e' :: r => some (.bool false, r)
        | _ => none
      else if c = '"' then
        match parseStr rest with
        | some (s, r) => some (.str s, r)
        | none => none
      else if c = '[' then
        match rest with
        | ']' :: r => some (.arr [], r)
        | _ =>
          match parseElems fuel rest with
          | some (vs, r) => some (.arr vs, r)
          | none => none
      else if c = '{' then
        match rest with
        | '}' :: r => some (.obj [], r)
        | _ =>
          match parseMembers fuel rest with
          | some (ms, r) => some (.obj ms, r)
          | none => none
      else none

/-- Parse a nonempty comma-separated list of array elements and the closing
bracket. -/
def parseElems : Nat → List Char → Option (List JSON × List Char)
  | 0, _ => none
  | fuel+1, input =>
    match parseVal fuel input with
    | some (v, r) =>
      match r with
      | ',' :: r2 =>
        match parseElems fuel r2 with
        | some (vs, r3) => some (v :: vs, r3)
        | none => none
      | ']' :: r2 => some ([v], r2)
      | _ => none
    | none => none

/-- Parse a nonempty comma-separated list of object members and the closing
brace. -/
def parseMembers : Nat → List Char → Option (List (List Char × JSON) × List Char)
  | 0, _ => none
  | fuel+1, input =>
    match input with
    | '"' :: rest =>
      match parseStr rest with
      | some (k, r) =>
        match r with
        | ':' :: r2 =>
          match parseVal fuel r2 with
          | some (v, r3) =>
            match r3 with
            | ',' :: r4 =>
              match parseMembers fuel r4 with
              | some (ms, r5) => some ((k, v) :: ms, r5)
              | none => none
            | '}' :: r4 => some ([(k, v)], r4)
            | _ => none
          | none => none
        | _ => none
      | none => none
    | _ => none

end

/-- Whole-input JSON parse: the value must consume the entire input. -/
def jsonParse (l : List Char) : Option JSON :=
  match parseVal (l.length + 1) l with
  | some (v, []) => some v
  | _ => none

/-! ## The stream-part registry

Modelled from the spec (§4.1, §6) and the declared shapes of
`textStreamPart` … `toolCallStreamPart` in `index.d.ts`: a tagged union
discriminated by a one-character code, each variant with its own JSON value
shape. -/

/-- `FunctionCall` of `index.d.ts`: both fields optional. -/
structure FunctionCallV where
  name : Option (List Char)
  arguments : Option (List Char)
deriving DecidableEq

/-- `ToolCall` of `index.d.ts`: `{id, type, function: {name, arguments}}`. -/
structure ToolCallV where
  id : List Char
  type : List Char
  fname : List Char
  fargs : List Char
deriving DecidableEq

/-- `AssistantMessage` of `index.d.ts`: `{id, role: 'assistant',
content: [{type: 'text', text: {value}}]}`; the fixed `role` and the fixed
content-item tags are implicit, `contentTexts` lists the `text.value`
fields. -/
structure AssistantMessageV where
  id : List Char
  contentTexts : List (List Char)
deriving DecidableEq

/-- The decoded `StreamPartType` union of `index.d.ts`. -/
inductive StreamPart where
  | text (s : List Char)
  | functionCall (fc : FunctionCallV)
  | data (values : List JSON)
  | error (s : List Char)
  | assistantMessage (m : AssistantMessageV)
  | assistantControlData (threadId messageId : List Char)
  | dataMessage (id : Option (List Char)) (d : JSON)
  | toolCalls (calls : List ToolCallV)

/-- The one-character code of each variant (`StreamStringPrefixes` in
`index.d.ts`). -/
def partCode : StreamPart → Char
  | .text _ => '0'
  | .functionCall _ => '1'
  | .data _ => '2'
  | .error _ => '3'
  | .assistantMessage _ => '4'
  | .assistantControlData _ _ => '5'
  | .dataMessage _ _ => '6'
  | .toolCalls _ => '7'

def toolCallJson (tc : ToolCallV) : JSON :=
  .obj [("id".toList, .str tc.id), ("type".toList, .str tc.type),
        ("function".toList, .obj [("name".toList, .str tc.fname),
                                  ("arguments".toList, .str tc.fargs)])]

def contentItemJson (t : List Char) : JSON :=
  .obj [("type".toList, .str "text".toList),
        ("text".toList, .obj [("value".toList, .str t)])]

/-- The JSON value carried by each variant's encoded line. -/
def partToJson : StreamPart → JSON
  | .text s => .str s
  | .functionCall fc =>
      .obj [("function_call".toList,
             .obj ((match fc.name with
                    | some s => [("name".toList, JSON.str s)]
                    | none => []) ++
                   (match fc.arguments with
                    | some s => [("arguments".toList, JSON.str s)]
                    | none => [])))]
  | .data vs => .arr vs
  | .error s => .str s
  | .assistantMessage m =>
      .obj [("id".toList, .str m.id), ("role".toList, .str "assistant".toList),
            ("content".toList, .arr (m.contentTexts.map contentItemJson))]
  | .assistantControlData t mId =>
      .obj [("threadId".toList, .str t), ("messageId".toList, .str mId)]
  | .dataMessage id d =>
      .obj ((match id with
             | some i => [("id".toList, JSON.str i)]
             | none => []) ++
            [("role".toList, .str "data".toList), ("data".toList, d)])
  | .toolCalls calls => .obj [("tool_calls".toList, .arr (calls.map toolCallJson))]

/-- Decode failures of the multiplexed protocol (§7 taxonomy, `ProtocolError`). -/
inductive ProtocolError where
  | malformedLine
  | unknownCode
  | invalidJson
  | malformedValue
  | incompleteLine
deriving DecidableEq

/-- Assoc-list lookup on JSON object members. -/
def jlookup (k : List Char) : List (List Char × JSON) → Option JSON
  | [] => none
  | (k', v) :: ms => if k' = k then some v else jlookup k ms

/-- Extract a string field. -/
def jstr : Option JSON → Option (List Char)
  | some (.str s) => some s
  | _ => none

def parseContentItem : JSON → Option (List Char)
  | .obj ms =>
    match jstr (jlookup "type".toList ms) with
    | some ty =>
      if ty = "text".toList then
        match jlookup "text".toList ms with
        | some (.obj tms) => jstr (jlookup "value".toList tms)
        | _ => none
      else none
    | none => none
  | _ => none

def parseToolCall : JSON → Option ToolCallV
  | .obj ms =>
    match jstr (jlookup "id".toList ms), jstr (jlookup "type".toList ms),
          jlookup "function".toList ms with
    | some i, some ty, some (.obj fms) =>
      match jstr (jlookup "name".toList fms), jstr (jlookup "arguments".toList fms) with
      | some n, some a => some ⟨i, ty, n, a⟩
      | _, _ => none
    | _, _, _ => none
  | _ => none

/-- An optional string field: absent is fine, present-but-not-a-string is a
shape violation. -/
def joptStr (ms : List (List Char × JSON)) (k : List Char) : Option (Option (List Char)) :=
  match jlookup k ms with
  | none => some none
  | some (.str s) => some (some s)
  | some _ => none

/-- The per-variant value validator/parser of the registry: given the
one-character code and the parsed JSON value, produce the typed part, failing
with `ProtocolError.unknownCode` for a code outside the fixed table and
`ProtocolError.malformedValue` when the value does not match the variant's
shape. -/
def decodeJson (c : Char) (v : JSON) : Except ProtocolError StreamPart :=
  if c = '0' then
    match v with
    | .str s => .ok (.text s)
    | _ => .error .malformedValue
  else if c = '1' then
    match v with
    | .obj ms =>
      match jlookup "function_call".toList ms with
      | some (.obj fms) =>
        match joptStr fms "name".toList, joptStr fms "arguments".toList with
        | some n, some a => .ok (.functionCall ⟨n, a⟩)
        | _, _ => .error .malformedValue
      | _ => .error .malformedValue
    | _ => .error .malformedValue
  else if c = '2' then
    match v with
    | .arr vs => .ok (.data vs)
    | _ => .error .malformedValue
  else if c = '3' then
    match v with
    | .str s => .ok (.error s)
    | _ => .error .malformedValue
  else if c = '4' then
    match v with
    | .obj ms =>
      match jstr (jlookup "id".toList ms), jstr (jlookup "role".toList ms),
            jlookup "content".toList ms with
      | some i, some role, some (.arr items) =>
        if role = "assistant".toList then
          match items.mapM parseContentItem with
          | some ts => .ok (.assistantMessage ⟨i, ts⟩)
          | none => .error .malformedValue
        else .error .malformedValue
      | _, _, _ => .error .malformedValue
    | _ => .error .malformedValue
  else if c = '5' then
    match v with
    | .obj ms =>
      match jstr (jlookup "threadId".toList ms), jstr (jlookup "messageId".toList ms) with
      | some t, some mId => .ok (.assistantControlData t mId)
      | _, _ => .error .malformedValue
    | _ => .error .malformedValue
  else if c = '6' then
    match v with
    | .obj ms =>
      match joptStr ms "id".toList, jstr (jlookup "role".toList ms),
            jlookup "data".toList ms with
      | some i, some role, some d =>
        if role = "data".toList then .ok (.dataMessage i d) else .error .malformedValue
      | _, _, _ => .error .malformedValue
    | _ => .error .malformedValue
  else if c = '7' then
    match v with
    | .obj ms =>
      match jlookup "tool_calls".toList ms with
      | some (.arr items) =>
        match items.mapM parseToolCall with
        | some calls => .ok (.toolCalls calls)
        | none => .error .malformedValue
      | _ => .error .malformedValue
    | _ => .error .malformedValue
  else .error .unknownCode

/-- The body of an encoded line: `<code>:<JSON-serialized value>`. -/
def encodeLine (p : StreamPart) : List Char :=
  partCode p :: ':' :: stringify (partToJson p)

/-- A full encoded record: `<code>:<JSON-serialized value>\n` (§6 wire
format). -/
def encodeText (p : StreamPart) : List Char := encodeLine p ++ ['\n']

/-- Split a line at its first `':'`: returns the part before and the part
after the separator. -/
def splitFirstColon : List Char → Option (List Char × List Char)
  | [] => none
  | c :: rest =>
    if c = ':' then some ([], rest)
    else (splitFirstColon rest).map (fun p => (c :: p.1, p.2))

/-- Decode one complete protocol line (§4.5): split at the first `':'`, look
up the one-character code in the registry, JSON-parse the remainder, and
produce the typed part. -/
def decodeLineE (l : List Char) : Except ProtocolError StreamPart :=
  match splitFirstColon l with
  | none => .error .malformedLine
  | some (codeStr, valStr) =>
    match codeStr with
    | [c] =>
      match jsonParse valStr with
      | some v => decodeJson c v
      | none => .error .invalidJson
    | _ => .error .unknownCode

/-! ## The multiplexed chunk decoder

Modelled from the spec (§4.5, `createChunkDecoder` in `index.d.ts`): a
pending-byte buffer is kept across chunks; each chunk is scanned for the
newline delimiter; every completed line is decoded through the registry; a
nonempty buffer left at end of stream is a decode error. -/

/-- One step of the delimiter scan: a newline completes the buffered line,
any other character is appended to the buffer. -/
def lineStep (st : List Char × List (List Char)) (c : Char) : List Char × List (List Char) :=
  if c = '\n' then ([], st.2 ++ [st.1]) else (st.1 ++ [c], st.2)

/-- Scan one chunk, starting from the pending buffer: returns the new pending
buffer and the lines completed inside this chunk. -/
def splitChunk (buf : List Char) (chunk : List Char) : List Char × List (List Char) :=
  chunk.foldl lineStep (buf, [])

/-- Decode a batch of complete lines; the first `ProtocolError` aborts. -/
def decodeLines : List (List Char) → Except ProtocolError (List StreamPart)
  | [] => .ok []
  | l :: ls => do
    let p ← decodeLineE l
    let ps ← decodeLines ls
    .ok (p :: ps)

/-- Feed one chunk to the decoder: completed lines are decoded, the partial
trailing line is kept in the buffer for the next chunk. -/
def feedChunk (buf : List Char) (chunk : List Char) :
    Except ProtocolError (List StreamPart × List Char) :=
  let st := splitChunk buf chunk
  (decodeLines st.2).map (fun ps => (ps, st.1))

/-- Run the decoder over a list of chunks starting from a pending buffer; at
end of stream a nonempty pending buffer (a line with no trailing delimiter)
is a decode error. -/
def decodeChunksFrom (buf : List Char) : List (List Char) → Except ProtocolError (List StreamPart)
  | [] => if buf = [] then .ok [] else .error .incompleteLine
  | ch :: rest => do
    let pb ← feedChunk buf ch
    let ps' ← decodeChunksFrom pb.2 rest
    .ok (pb.1 ++ ps')

/-- The chunk decoder: feed the chunks in order, then finish. -/
def decodeChunks (chunks : List (List Char)) : Except ProtocolError (List StreamPart) :=
  decodeChunksFrom [] chunks

/-- Decode a whole byte sequence in one piece. -/
def decodeAll (input : List Char) : Except ProtocolError (List StreamPart) :=
  decodeChunks [input]

/-! ## Correctness of the JSON codec -/

theorem digitChar_isDigit (d : Nat) : (digitChar d).isDigit = true := by
  rcases d with _|_|_|_|_|_|_|_|_|d <;> rfl

theorem digitVal_digitChar (d : Nat) (h : d < 10) : digitVal (digitChar d) = d := by
  interval_cases d <;> rfl

theorem parseNatAcc_append (a : Nat) (l1 l2 : List Char) :
    parseNatAcc a (l1 ++ l2) = parseNatAcc (parseNatAcc a l1) l2 :=
  List.foldl_append ..

theorem natToCharsAux_digits (fuel n : Nat) :
    ∀ c ∈ natToCharsAux fuel n, c.isDigit = true := by
  induction fuel generalizing n with
  | zero => simp [natToCharsAux]
  | succ fuel ih =>
    intro c hc
    simp only [natToCharsAux] at hc
    split at hc
    · simp at hc
    · rcases List.mem_append.1 hc with h | h
      · exact ih _ _ h
      · simp at h; subst h; exact digitChar_isDigit _

theorem natToChars_digits (n : Nat) : ∀ c ∈ natToChars n, c.isDigit = true := by
  intro c hc
  unfold natToChars at hc
  split at hc
  · simp at hc; subst hc; rfl
  · exact natToCharsAux_digits _ _ _ hc

theorem natToChars_ne_nil (n : Nat) : natToChars n ≠ [] := by
  unfold natToChars
  split
  · simp
  · rename_i h
    rcases n with _ | m
    · exact absurd rfl h
    · simp only [natToCharsAux, h, if_neg]
      simp

theorem natToCharsAux_parse (fuel : Nat) :
    ∀ n a, n ≤ fuel →
      parseNatAcc a (natToCharsAux fuel n) = a * 10 ^ (natToCharsAux fuel n).length + n := by
  induction fuel with
  | zero =>
    intro n a h
    interval_cases n
    simp [natToCharsAux, parseNatAcc]
  | succ fuel ih =>
    intro n a h
    by_cases h0 : n = 0
    · subst h0; simp [natToCharsAux, parseNatAcc]
    · have hdiv : n / 10 ≤ fuel := by
        have := Nat.div_lt_self (Nat.pos_of_ne_zero h0) (by norm_num : 1 < 10)
        omega
      simp only [natToCharsAux, h0, if_neg, if_false]
      rw [parseNatAcc_append, ih _ _ hdiv]
      have hmod : n % 10 < 10 := Nat.mod_lt _ (by norm_num)
      simp only [parseNatAcc, List.foldl_cons, List.foldl_nil, digitVal_digitChar _ hmod]
      rw [List.length_append, List.length_singleton, pow_succ]
      have := Nat.div_add_mod n 10
      ring_nf
      omega

theorem parseNatAcc_natToChars (n : Nat) : parseNatAcc 0 (natToChars n) = n := by
  unfold natToChars
  split
  · rename_i h; subst h; rfl
  · rw [natToCharsAux_parse (n+1) n 0 (Nat.le_succ n)]
    simp

theorem takeWhile_append_of_all {p : Char → Bool} {xs r : List Char}
    (hx : ∀ x ∈ xs, p x = true) (hr : r.takeWhile p = []) :
    (xs ++ r).takeWhile p = xs ∧ (xs ++ r).dropWhile p = r := by
  induction xs with
  | nil =>
    simp only [List.nil_append]
    refine ⟨hr, ?_⟩
    cases r with
    | nil => rfl
    | cons c cs =>
      simp only [List.takeWhile] at hr
      split at hr
      · simp at hr
      · rename_i hc
        simp [List.dropWhile, hc]
  | cons x xs ih =>
    have hx' : p x = true := hx x (List.mem_cons_self ..)
    have ihh := ih (fun y hy => hx y (List.mem_cons_of_mem _ hy))
    simp [List.takeWhile_cons, List.dropWhile_cons, hx', ihh.1, ihh.2]

mutual

/-- Size measure used as parser fuel bound. -/
def mu : JSON → Nat
  | .null => 1
  | .bool _ => 1
  | .num _ => 1
  | .str _ => 1
  | .arr vs => muE vs + 1
  | .obj ms => muM ms + 1

def muE : List JSON → Nat
  | [] => 0
  | v :: vs => max (mu v) (muE vs) + 1

def muM : List (List Char × JSON) → Nat
  | [] => 0
  | (_, v) :: ms => max (mu v) (muM ms) + 1

end

theorem mu_pos (v : JSON) : 1 ≤ mu v := by
  cases v <;> simp [mu]

/-- Simultaneous induction over JSON values, element lists and member
lists. -/
theorem json_induction (P : JSON → Prop) (Q : List JSON → Prop)
    (R : List (List Char × JSON) → Prop)
    (hnull : P .null) (hbool : ∀ b, P (.bool b)) (hnum : ∀ n, P (.num n))
    (hstr : ∀ s, P (.str s))
    (harr : ∀ vs, Q vs → P (.arr vs)) (hobj : ∀ ms, R ms → P (.obj ms))
    (hqnil : Q []) (hqcons : ∀ v vs, P v → Q vs → Q (v :: vs))
    (hrnil : R []) (hrcons : ∀ k v ms, P v → R ms → R ((k, v) :: ms)) :
    (∀ v, P v) ∧ (∀ vs, Q vs) ∧ (∀ ms, R ms) := by
  have key : ∀ n, (∀ v, mu v ≤ n → P v) ∧ (∀ vs, muE vs ≤ n → Q vs) ∧
      (∀ ms, muM ms ≤ n → R ms) := by
    intro n
    induction n with
    | zero =>
      refine ⟨fun v hv => absurd (le_trans (mu_pos v) hv) (by omega), ?_, ?_⟩
      · intro vs hvs
        cases vs with
        | nil => exact hqnil
        | cons v vs => simp [muE] at hvs
      · intro ms hms
        cases ms with
        | nil => exact hrnil
        | cons m ms => obtain ⟨k, v⟩ := m; simp [muM] at hms
    | succ n ih =>
      refine ⟨?_, ?_, ?_⟩
      · intro v hv
        cases v with
        | null => exact hnull
        | bool b => exact hbool b
        | num m => exact hnum m
        | str s => exact hstr s
        | arr vs =>
          refine harr vs (ih.2.1 vs ?_)
          simp only [mu] at hv; omega
        | obj ms =>
          refine hobj ms (ih.2.2 ms ?_)
          simp only [mu] at hv; omega
      · intro vs hvs
        cases vs with
        | nil => exact hqnil
        | cons v vs =>
          simp only [muE] at hvs
          exact hqcons v vs (ih.1 v (by omega)) (ih.2.1 vs (by omega))
      · intro ms hms
        cases ms with
        | nil => exact hrnil
        | cons m ms =>
          obtain ⟨k, v⟩ := m
          simp only [muM] at hms
          exact hrcons k v ms (ih.1 v (by omega)) (ih.2.2 ms (by omega))
  exact ⟨fun v => (key (mu v)).1 v le_rfl, fun vs => (key (muE vs)).2.1 vs le_rfl,
    fun ms => (key (muM ms)).2.2 ms le_rfl⟩

theorem stringify_head (v : JSON) :
    ∃ c t, stringify v = c :: t ∧ c ≠ ']' ∧ c ≠ '}' := by
  have hnat : ∀ m : Nat, ∃ c t, natToChars m = c :: t ∧ c ≠ ']' ∧ c ≠ '}' := by
    intro m
    obtain ⟨c, t, hct⟩ := List.exists_cons_of_ne_nil (natToChars_ne_nil m)
    have hd : c.isDigit = true := natToChars_digits m c (hct ▸ List.mem_cons_self ..)
    refine ⟨c, t, hct, ?_, ?_⟩ <;> rintro rfl <;> simp [Char.isDigit] at hd
  cases v with
  | null => exact ⟨'n', _, rfl, by decide, by decide⟩
  | bool b =>
    cases b
    · exact ⟨'f', _, rfl, by decide, by decide⟩
    · exact ⟨'t', _, rfl, by decide, by decide⟩
  | num n =>
    show ∃ c t, intToChars n = c :: t ∧ _
    unfold intToChars
    split
    · exact ⟨'-', _, rfl, by decide, by decide⟩
    · exact hnat n.natAbs
  | str s => exact ⟨'"', _, rfl, by decide, by decide⟩
  | arr vs => exact ⟨'[', _, rfl, by decide, by decide⟩
  | obj ms => exact ⟨'{', _, rfl, by decide, by decide⟩

theorem escChar_no_newline (c : Char) : '\n' ∉ escChar c := by
  unfold escChar
  split
  · decide
  · split
    · decide
    · split
      · decide
      · rename_i h1 h2 h3
        simp only [List.mem_singleton]
        exact Ne.symm h3

theorem stringify_no_newline :
    (∀ v : JSON, '\n' ∉ stringify v) ∧ (∀ vs : List JSON, '\n' ∉ stringifyElems vs) ∧
      (∀ ms : List (List Char × JSON), '\n' ∉ stringifyMembers ms) := by
  have hesc : ∀ s : List Char, '\n' ∉ escape s := by
    intro s h
    rw [escape, List.mem_flatMap] at h
    obtain ⟨c, _, hc⟩ := h
    exact escChar_no_newline c hc
  have hnat : ∀ m : Nat, '\n' ∉ natToChars m := by
    intro m h
    have := natToChars_digits m _ h
    simp [Char.isDigit] at this
  have hint : ∀ n : Int, '\n' ∉ intToChars n := by
    intro n h
    unfold intToChars at h
    split at h
    · rcases List.mem_cons.1 h with h | h
      · exact absurd h (by decide)
      · exact hnat _ h
    · exact hnat _ h
  refine json_induction (fun v => '\n' ∉ stringify v) (fun vs => '\n' ∉ stringifyElems vs)
    (fun ms => '\n' ∉ stringifyMembers ms) ?_ ?_ ?_ ?_ ?_ ?_ ?_ ?_ ?_ ?_
  · decide
  · intro b; cases b <;> decide
  · intro n; exact hint n
  · intro s h
    simp only [stringify] at h
    rcases List.mem_cons.1 h with h | h
    · exact absurd h (by decide)
    · rcases List.mem_append.1 h with h | h
      · exact hesc s h
      · exact absurd (List.mem_singleton.1 h) (by decide)
  · intro vs hq h
    simp only [stringify] at h
    rcases List.mem_cons.1 h with h | h
    · exact absurd h (by decide)
    · rcases List.mem_append.1 h with h | h
      · exact hq h
      · exact absurd (List.mem_singleton.1 h) (by decide)
  · intro ms hr h
    simp only [stringify] at h
    rcases List.mem_cons.1 h with h | h
    · exact absurd h (by decide)
    · rcases List.mem_append.1 h with h | h
      · exact hr h
      · exact absurd (List.mem_singleton.1 h) (by decide)
  · decide
  · intro v vs hv hvs h
    cases vs with
    | nil => exact hv h
    | cons v' vs' =>
      simp only [stringifyElems] at h
      rcases List.mem_append.1 h with h | h
      · exact hv h
      · rcases List.mem_cons.1 h with h | h
        · exact absurd h (by decide)
        · exact hvs h
  · decide
  · intro k v ms hv hms h
    have member : '\n' ∉ '"' :: escape k ++ '"' :: ':' :: stringify v := by
      intro h
      rcases List.mem_cons.1 h with h | h
      · exact absurd h (by decide)
      · rcases List.mem_append.1 h with h | h
        · exact hesc k h
        · rcases List.mem_cons.1 h with h | h
          · exact absurd h (by decide)
          · rcases List.mem_cons.1 h with h | h
            · exact absurd h (by decide)
            · exact hv h
    cases ms with
    | nil => exact member h
    | cons m' ms' =>
      simp only [stringifyMembers] at h
      rcases List.mem_append.1 h with h | h
      · exact member h
      · rcases List.mem_cons.1 h with h | h
        · exact absurd h (by decide)
        · exact hms h

theorem mu_le_length :
    (∀ v : JSON, mu v ≤ (stringify v).length) ∧
      (∀ vs : List JSON, muE vs ≤ (stringifyElems vs).length + 1) ∧
      (∀ ms : List (List Char × JSON), muM ms ≤ (stringifyMembers ms).length + 1) := by
  refine json_induction (fun v => mu v ≤ (stringify v).length)
    (fun vs => muE vs ≤ (stringifyElems vs).length + 1)
    (fun ms => muM ms ≤ (stringifyMembers ms).length + 1) ?_ ?_ ?_ ?_ ?_ ?_ ?_ ?_ ?_ ?_
  · decide
  · intro b; cases b <;> decide
  · intro n
    have h := natToChars_ne_nil n.natAbs
    have : 1 ≤ (natToChars n.natAbs).length := by
      cases hn : natToChars n.natAbs with
      | nil => exact absurd hn h
      | cons c t => simp
    simp only [mu, stringify, intToChars]
    split
    · simp
    · simp
      omega
  · intro s; simp [mu, stringify]
  · intro vs hq
    simp only [mu, stringify, List.length_cons, List.length_append, List.length_singleton]
    omega
  · intro ms hr
    simp only [mu, stringify, List.length_cons, List.length_append, List.length_singleton]
    omega
  · simp [muE, stringifyElems]
  · intro v vs hv hvs
    cases vs with
    | nil => simp only [muE, stringifyElems]; omega
    | cons v' vs' =>
      simp only [muE, stringifyElems, List.length_append, List.length_cons] at *
      omega
  · simp [muM, stringifyMembers]
  · intro k v ms hv hms
    cases ms with
    | nil =>
      simp only [muM, stringifyMembers, List.length_cons, List.length_append] at *
      omega
    | cons m' ms' =>
      simp only [muM, stringifyMembers, List.length_append, List.length_cons] at *
      omega

theorem parseNum_natToChars (m : Nat) (r : List Char) (hr : r.takeWhile Char.isDigit = []) :
    parseNum (natToChars m ++ r) = some (m, r) := by
  have h := takeWhile_append_of_all (natToChars_digits m) hr
  simp only [parseNum, h.1, h.2]
  rw [if_neg (natToChars_ne_nil m), parseNatAcc_natToChars]

theorem parseStr_escape (s : List Char) (rest : List Char) :
    parseStr (escape s ++ '"' :: rest) = some (s, rest) := by
  show parseStrAux false _ = _
  induction s with
  | nil => simp [escape, parseStrAux]
  | cons c cs ih =>
    show parseStrAux false ((escChar c ++ escape cs) ++ '"' :: rest) = _
    rw [List.append_assoc]
    by_cases h1 : c = '"'
    · subst h1; simp [escChar, parseStrAux, unescChar, ih]
    · by_cases h2 : c = '\\'
      · subst h2; simp [escChar, parseStrAux, unescChar, ih]
      · by_cases h3 : c = '\n'
        · subst h3; simp [escChar, parseStrAux, unescChar, ih]
        · have e1 : escChar c = [c] := by simp [escChar, h1, h2, h3]
          rw [e1, List.singleton_append]
          simp [parseStrAux, h1, h2, ih]

theorem stringifyElems_cons (x : JSON) (xs : List JSON) :
    ∃ t, stringifyElems (x :: xs) = stringify x ++ t := by
  cases xs with
  | nil => exact ⟨[], (List.append_nil _).symm⟩
  | cons x' xs' => exact ⟨',' :: stringifyElems (x' :: xs'), rfl⟩

theorem stringifyMembers_cons (k : List Char) (v : JSON) (ms : List (List Char × JSON)) :
    ∃ t, stringifyMembers ((k, v) :: ms) = '"' :: t := by
  cases ms with
  | nil => exact ⟨_, rfl⟩
  | cons m' ms' => exact ⟨_, rfl⟩

theorem takeWhile_isDigit_nil {c : Char} (l : List Char) (h : c.isDigit = false) :
    (c :: l).takeWhile Char.isDigit = [] := by
  simp [List.takeWhile_cons, h]

/-- Round trip of the JSON codec: parsing a serialized value (followed by any
remainder that does not begin with a digit) succeeds and returns the value
and the remainder unchanged. -/
theorem parse_stringify (fuel : Nat) :
    (∀ v rest, mu v ≤ fuel → rest.takeWhile Char.isDigit = [] →
      parseVal fuel (stringify v ++ rest) = some (v, rest)) ∧
    (∀ vs rest, vs ≠ [] → muE vs ≤ fuel →
      parseElems fuel (stringifyElems vs ++ ']' :: rest) = some (vs, rest)) ∧
    (∀ ms rest, ms ≠ [] → muM ms ≤ fuel →
      parseMembers fuel (stringifyMembers ms ++ '}' :: rest) = some (ms, rest)) := by
  induction fuel with
  | zero =>
    refine ⟨fun v rest hmu _ => absurd (le_trans (mu_pos v) hmu) (by omega), ?_, ?_⟩
    · intro vs rest hne hmu
      cases vs with
      | nil => exact absurd rfl hne
      | cons x xs => simp [muE] at hmu
    · intro ms rest hne hmu
      cases ms with
      | nil => exact absurd rfl hne
      | cons m ms => obtain ⟨k, v⟩ := m; simp [muM] at hmu
  | succ fuel ih =>
    refine ⟨?_, ?_, ?_⟩
    · -- parseVal on stringify v
      intro v rest hmu hrest
      cases v with
      | null => simp [stringify, nullChars, parseVal]
      | bool b => cases b <;> simp [stringify, trueChars, falseChars, parseVal]
      | num n =>
        show parseVal (fuel+1) (intToChars n ++ rest) = _
        by_cases hneg : n < 0
        · simp only [intToChars, if_pos hneg, List.cons_append]
          simp only [parseVal, if_true]
          rw [parseNum_natToChars _ _ hrest]
          have he : -(n.natAbs : Int) = n := by omega
          simpa using he
        · obtain ⟨c, t, hct⟩ := List.exists_cons_of_ne_nil (natToChars_ne_nil n.natAbs)
          have hd : c.isDigit = true := natToChars_digits _ c (hct ▸ List.mem_cons_self ..)
          have hc1 : ¬ c = '-' := by rintro rfl; simp [Char.isDigit] at hd
          simp only [intToChars, if_neg hneg, hct, List.cons_append]
          simp only [parseVal]
          rw [if_neg hc1, if_pos hd, ← List.cons_append, ← hct,
            parseNum_natToChars _ _ hrest]
          have he : (n.natAbs : Int) = n := by omega
          simpa using he
      | str s =>
        have he : stringify (.str s) ++ rest = '"' :: (escape s ++ '"' :: rest) := by
          simp [stringify]
        rw [he]
        simp [parseVal, parseStr_escape]
      | arr vs =>
        cases vs with
        | nil => simp [stringify, stringifyElems, parseVal]
        | cons x xs =>
          have harr : stringify (.arr (x :: xs)) ++ rest =
              '[' :: (stringifyElems (x :: xs) ++ ']' :: rest) := by
            simp [stringify]
          rw [harr]
          have hB := (ih.2.1) (x :: xs) rest (by simp) (by simp only [mu] at hmu; omega)
          obtain ⟨c, t, hct, hcr, _⟩ := stringify_head x
          obtain ⟨t2, ht2⟩ := stringifyElems_cons x xs
          have hexp : stringifyElems (x :: xs) ++ ']' :: rest =
              c :: (t ++ (t2 ++ ']' :: rest)) := by
            rw [ht2, hct]; simp
          rw [hexp] at hB ⊢
          simp [parseVal, hcr, hB]
      | obj ms =>
        cases ms with
        | nil => simp [stringify, stringifyMembers, parseVal]
        | cons m ms' =>
          obtain ⟨k, v⟩ := m
          have hobj : stringify (.obj ((k, v) :: ms')) ++ rest =
              '{' :: (stringifyMembers ((k, v) :: ms') ++ '}' :: rest) := by
            simp [stringify]
          rw [hobj]
          have hC := (ih.2.2) ((k, v) :: ms') rest (by simp)
            (by simp only [mu] at hmu; omega)
          obtain ⟨t2, ht2⟩ := stringifyMembers_cons k v ms'
          have hexp : stringifyMembers ((k, v) :: ms') ++ '}' :: rest =
              '"' :: (t2 ++ '}' :: rest) := by
            rw [ht2]; simp
          rw [hexp] at hC ⊢
          simp [parseVal, hC]
    · -- parseElems on stringifyElems
      intro vs rest hne hmu
      cases vs with
      | nil => exact absurd rfl hne
      | cons x xs =>
        simp only [muE] at hmu
        cases xs with
        | nil =>
          have hA := (ih.1) x (']' :: rest) (by omega)
            (takeWhile_isDigit_nil _ (by decide))
          simp only [stringifyElems]
          simp [parseElems, hA]
        | cons x' xs' =>
          have hB := (ih.2.1) (x' :: xs') rest (by simp) (by simp only [muE] at hmu ⊢; omega)
          have hA := (ih.1) x (',' :: (stringifyElems (x' :: xs') ++ ']' :: rest))
            (by omega) (takeWhile_isDigit_nil _ (by decide))
          have he : stringifyElems (x :: x' :: xs') ++ ']' :: rest =
              stringify x ++ (',' :: (stringifyElems (x' :: xs') ++ ']' :: rest)) := by
            simp only [stringifyElems]
            simp
          rw [he]
          simp [parseElems, hA, hB]
    · -- parseMembers on stringifyMembers
      intro ms rest hne hmu
      cases ms with
      | nil => exact absurd rfl hne
      | cons m ms' =>
        obtain ⟨k, v⟩ := m
        simp only [muM] at hmu
        cases ms' with
        | nil =>
          have hA := (ih.1) v ('}' :: rest) (by omega)
            (takeWhile_isDigit_nil _ (by decide))
          have he : stringifyMembers [(k, v)] ++ '}' :: rest =
              '"' :: (escape k ++ '"' :: (':' :: (stringify v ++ '}' :: rest))) := by
            simp only [stringifyMembers]
            simp
          rw [he]
          simp [parseMembers, parseStr_escape, hA]
        | cons m' ms'' =>
          have hC := (ih.2.2) (m' :: ms'') rest (by simp)
            (by simp only [muM] at hmu ⊢; omega)
          have hA := (ih.1) v (',' :: (stringifyMembers (m' :: ms'') ++ '}' :: rest))
            (by omega) (takeWhile_isDigit_nil _ (by decide))
          have he : stringifyMembers ((k, v) :: m' :: ms'') ++ '}' :: rest =
              '"' :: (escape k ++ '"' :: (':' :: (stringify v ++
                (',' :: (stringifyMembers (m' :: ms'') ++ '}' :: rest))))) := by
            simp only [stringifyMembers]
            simp
          rw [he]
          simp [parseMembers, parseStr_escape, hA, hC]

/-- Whole-input parse inverts `stringify`. -/
theorem jsonParse_stringify (v : JSON) : jsonParse (stringify v) = some v := by
  have h := (parse_stringify ((stringify v).length + 1)).1 v []
    (le_trans (mu_le_length.1 v) (by omega)) rfl
  rw [List.append_nil] at h
  rw [jsonParse, h]

/-! ## Round trip of the registry -/

theorem mapM_parseContentItem (ts : List (List Char)) (acc : List (List Char)) :
    List.mapM.loop parseContentItem (ts.map contentItemJson) acc =
      some (acc.reverse ++ ts) := by
  induction ts generalizing acc with
  | nil => simp [List.mapM.loop]
  | cons t ts ih =>
    have hone : parseContentItem (contentItemJson t) = some t := rfl
    rw [List.map_cons, List.mapM.loop, hone]
    simp [ih]

theorem mapM_parseToolCall (calls : List ToolCallV) (acc : List ToolCallV) :
    List.mapM.loop parseToolCall (calls.map toolCallJson) acc =
      some (acc.reverse ++ calls) := by
  induction calls generalizing acc with
  | nil => simp [List.mapM.loop]
  | cons tc tcs ih =>
    have hone : parseToolCall (toolCallJson tc) = some tc := rfl
    rw [List.map_cons, List.mapM.loop, hone]
    simp [ih]

/-- Registry round trip at the JSON level: the per-variant parser inverts the
per-variant serialization. -/
theorem decodeJson_partToJson (p : StreamPart) :
    decodeJson (partCode p) (partToJson p) = .ok p := by
  cases p with
  | text s => rfl
  | functionCall fc =>
    obtain ⟨name, args⟩ := fc
    cases name <;> cases args <;> rfl
  | data vs => rfl
  | error s => rfl
  | assistantMessage m =>
    obtain ⟨i, ts⟩ := m
    simp [decodeJson, partToJson, jlookup, jstr, partCode]
    rw [mapM_parseContentItem]
    simp
  | assistantControlData t mId => rfl
  | dataMessage id d =>
    cases id <;> rfl
  | toolCalls calls =>
    simp [decodeJson, partToJson, jlookup, jstr, partCode]
    rw [mapM_parseToolCall]
    simp

theorem splitFirstColon_encode (c : Char) (hc : ¬ c = ':') (val : List Char) :
    splitFirstColon (c :: ':' :: val) = some ([c], val) := by
  simp [splitFirstColon, hc]

theorem partCode_ne_colon (p : StreamPart) : ¬ partCode p = ':' := by
  cases p <;> simp [partCode]

/-- Line-level round trip: decoding the encoded line body recovers the
part. -/
theorem decodeLineE_encodeLine (p : StreamPart) : decodeLineE (encodeLine p) = .ok p := by
  have h1 := splitFirstColon_encode (partCode p) (partCode_ne_colon p)
    (stringify (partToJson p))
  simp only [decodeLineE, encodeLine, h1, jsonParse_stringify]
  exact decodeJson_partToJson p

/-! ## Correctness of the chunk decoder framing -/

theorem encodeLine_no_newline (p : StreamPart) : '\n' ∉ encodeLine p := by
  intro h
  rw [encodeLine] at h
  rcases List.mem_cons.1 h with h | h
  · cases p <;> simp [partCode] at h
  · rcases List.mem_cons.1 h with h | h
    · exact absurd h (by decide)
    · exact stringify_no_newline.1 _ h

theorem lineStep_newline (buf : List Char) (acc : List (List Char)) :
    lineStep (buf, acc) '\n' = ([], acc ++ [buf]) := by
  simp [lineStep]

theorem lineStep_other (buf : List Char) (acc : List (List Char)) (c : Char)
    (h : c ≠ '\n') : lineStep (buf, acc) c = (buf ++ [c], acc) := by
  simp [lineStep, h]

theorem foldl_lineStep_acc (chunk : List Char) :
    ∀ buf acc, chunk.foldl lineStep (buf, acc) =
      ((chunk.foldl lineStep (buf, [])).1, acc ++ (chunk.foldl lineStep (buf, [])).2) := by
  induction chunk with
  | nil => intro buf acc; simp
  | cons c cs ih =>
    intro buf acc
    by_cases h : c = '\n'
    · subst h
      rw [List.foldl_cons, List.foldl_cons, lineStep_newline, lineStep_newline,
        ih [] (acc ++ [buf]), ih [] ([] ++ [buf])]
      simp
    · rw [List.foldl_cons, List.foldl_cons, lineStep_other _ _ _ h, lineStep_other _ _ _ h,
        ih (buf ++ [c]) acc, ih (buf ++ [c]) []]

theorem foldl_lineStep_no_newline (chunk : List Char) :
    ∀ buf acc, (∀ c ∈ chunk, c ≠ '\n') →
      chunk.foldl lineStep (buf, acc) = (buf ++ chunk, acc) := by
  induction chunk with
  | nil => intro buf acc _; simp
  | cons c cs ih =>
    intro buf acc h
    have hc : c ≠ '\n' := h c (List.mem_cons_self ..)
    rw [List.foldl_cons, lineStep_other _ _ _ hc,
      ih (buf ++ [c]) acc (fun x hx => h x (List.mem_cons_of_mem _ hx))]
    simp

theorem foldl_lineStep_encoded (parts : List StreamPart) :
    ∀ acc, (parts.flatMap encodeText).foldl lineStep ([], acc) =
      ([], acc ++ parts.map encodeLine) := by
  induction parts with
  | nil => intro acc; simp
  | cons p ps ih =>
    intro acc
    rw [List.flatMap_cons, List.foldl_append]
    have h1 : (encodeText p).foldl lineStep ([], acc) = ([], acc ++ [encodeLine p]) := by
      rw [encodeText, List.foldl_append, foldl_lineStep_no_newline (encodeLine p) [] acc
        (fun c hc hh => encodeLine_no_newline p (hh ▸ hc))]
      simp [lineStep_newline]
    rw [h1, ih]
    simp

theorem decodeLines_append (l1 l2 : List (List Char)) :
    decodeLines (l1 ++ l2) =
      (decodeLines l1).bind fun a => (decodeLines l2).map fun b => a ++ b := by
  induction l1 with
  | nil =>
    simp only [List.nil_append, decodeLines]
    cases h : decodeLines l2 <;> simp [Bind.bind, Except.bind, Except.map]
  | cons l ls ih =>
    simp only [List.cons_append, decodeLines, ih]
    cases h : decodeLineE l
    · simp [Bind.bind, Except.bind]
    · cases h2 : decodeLines ls
      · simp [Bind.bind, Except.bind, ih, h2, Except.map]
      · cases h3 : decodeLines l2 <;>
          simp [Bind.bind, Except.bind, ih, h2, h3, Except.map]

theorem decodeLines_encoded (parts : List StreamPart) :
    decodeLines (parts.map encodeLine) = .ok parts := by
  induction parts with
  | nil => rfl
  | cons p ps ih =>
    rw [List.map_cons, decodeLines, decodeLineE_encodeLine, ih]
    rfl

theorem feedChunk_append (buf a b : List Char) :
    feedChunk buf (a ++ b) =
      (feedChunk buf a).bind fun pb =>
        (feedChunk pb.2 b).map fun pb2 => (pb.1 ++ pb2.1, pb2.2) := by
  rcases h1 : a.foldl lineStep (buf, []) with ⟨b1, l1⟩
  rcases h2 : b.foldl lineStep (b1, []) with ⟨b2, l2⟩
  simp only [feedChunk, splitChunk]
  rw [List.foldl_append, h1, foldl_lineStep_acc b b1 l1, h2, decodeLines_append]
  cases d1 : decodeLines l1
  · simp [Bind.bind, Except.bind, Except.map]
  · cases d2 : decodeLines l2 <;> simp [Bind.bind, Except.bind, Except.map, h2, d2]

theorem decodeChunksFrom_flatten (chunks : List (List Char)) :
    ∀ buf, decodeChunksFrom buf chunks = decodeChunksFrom buf [chunks.flatten] := by
  induction chunks with
  | nil =>
    intro buf
    by_cases hbuf : buf = [] <;>
      simp [decodeChunksFrom, feedChunk, splitChunk, decodeLines, Bind.bind, Except.bind,
        Except.map, hbuf]
  | cons ch rest ih =>
    intro buf
    rw [List.flatten_cons, decodeChunksFrom]
    simp only [ih]
    cases f1 : feedChunk buf ch
    · simp [decodeChunksFrom, feedChunk_append, f1, Bind.bind, Except.bind]
    · rename_i pb1
      cases f2 : feedChunk pb1.2 rest.flatten
      · simp [decodeChunksFrom, feedChunk_append, f1, f2, Bind.bind, Except.bind,
          Except.map]
      · rename_i pb2
        by_cases hb : pb2.2 = [] <;>
          simp [decodeChunksFrom, feedChunk_append, f1, f2, hb, Bind.bind, Except.bind,
            Except.map]

/-- Feeding any chunking of an encoded part sequence decodes to exactly that
part sequence. -/
theorem decodeChunks_encoded (parts : List StreamPart) (chunks : List (List Char))
    (h : chunks.flatten = parts.flatMap encodeText) :
    decodeChunks chunks = .ok parts := by
  rw [decodeChunks, decodeChunksFrom_flatten, h]
  have hf : feedChunk [] (parts.flatMap encodeText) = .ok (parts, []) := by
    rw [feedChunk, splitChunk, foldl_lineStep_encoded parts []]
    simp [decodeLines_encoded, Except.map]
  rw [decodeChunksFrom, hf]
  simp [Bind.bind, Except.bind, decodeChunksFrom]

theorem decodeAll_malformed (parts : List StreamPart) (bad post : List Char)
    (e : ProtocolError) (hnb : '\n' ∉ bad) (hbad : decodeLineE bad = .error e) :
    decodeAll (parts.flatMap encodeText ++ (bad ++ '\n' :: post)) = .error e := by
  rcases hp : post.foldl lineStep ([], []) with ⟨bp, lp⟩
  have hsplit : (parts.flatMap encodeText ++ (bad ++ '\n' :: post)).foldl lineStep ([], []) =
      (bp, (parts.map encodeLine ++ [bad]) ++ lp) := by
    rw [List.foldl_append, foldl_lineStep_encoded parts [], List.nil_append,
      List.foldl_append,
      foldl_lineStep_no_newline bad [] (parts.map encodeLine)
        (fun c hc hh => hnb (hh ▸ hc)),
      List.nil_append, List.foldl_cons, lineStep_newline,
      foldl_lineStep_acc post [] _, hp]
  rw [decodeAll, decodeChunks, decodeChunksFrom, feedChunk, splitChunk, hsplit]
  have hlines : decodeLines ((parts.map encodeLine ++ [bad]) ++ lp) = .error e := by
    rw [decodeLines_append, decodeLines_append, decodeLines_encoded]
    simp [Bind.bind, Except.bind, decodeLines, hbad, Except.map]
  rw [hlines]
  simp [Bind.bind, Except.bind, Except.map]

theorem decodeAll_incomplete (parts : List StreamPart) (t : List Char)
    (hne : t ≠ []) (hnb : '\n' ∉ t) :
    decodeAll (parts.flatMap encodeText ++ t) = .error .incompleteLine := by
  have hsplit : (parts.flatMap encodeText ++ t).foldl lineStep ([], []) =
      (t, parts.map encodeLine) := by
    rw [List.foldl_append, foldl_lineStep_encoded parts [], List.nil_append,
      foldl_lineStep_no_newline t [] (parts.map encodeLine)
        (fun c hc hh => hnb (hh ▸ hc)),
      List.nil_append]
  rw [decodeAll, decodeChunks, decodeChunksFrom, feedChunk, splitChunk, hsplit]
  simp [decodeLines_encoded, Bind.bind, Except.bind, Except.map, decodeChunksFrom, hne]

/-! ## The callbacks/lifecycle transformer

Modelled from the spec (§4.4, `createCallbacksTransformer` in `index.d.ts`):
the transformer wraps a token stream (with logical-message boundaries) and
produces the ordered sequence of lifecycle callback invocations. -/

/-- One item of the incoming token stream: a token, or the boundary closing a
logical message (e.g. a completed function-call round-trip). -/
inductive StreamItem where
  | token (t : List Char)
  | endOfMessage
deriving DecidableEq

/-- An observed lifecycle callback invocation. -/
inductive CbEvent where
  | start
  | token (t : List Char)
  | completion (s : List Char)
  | final (s : List Char)
deriving DecidableEq

/-- The transformer body: `accMsg` is the text of the current logical
message, `accAll` the full text so far.  Empty tokens are not forwarded to
`onToken`; each message boundary invokes `onCompletion` with that message's
text; stream close invokes `onFinal` with the full concatenated text. -/
def cbLoop (accMsg accAll : List Char) : List StreamItem → List CbEvent
  | [] => [.final accAll]
  | .token t :: rest =>
    (if t = [] then [] else [.token t]) ++ cbLoop (accMsg ++ t) (accAll ++ t) rest
  | .endOfMessage :: rest => .completion accMsg :: cbLoop [] accAll rest

/-- The callback trace of one stream: `onStart` at initialization, then the
transform/flush events. -/
def createCallbacksTransformer (items : List StreamItem) : List CbEvent :=
  .start :: cbLoop [] [] items

/-- The arguments of the `onToken` invocations of a trace, in order. -/
def tokensOf : List CbEvent → List (List Char)
  | [] => []
  | .token t :: r => t :: tokensOf r
  | _ :: r => tokensOf r

/-- The arguments of the `onCompletion` invocations of a trace, in order. -/
def completionsOf : List CbEvent → List (List Char)
  | [] => []
  | .completion s :: r => s :: completionsOf r
  | _ :: r => completionsOf r

/-- The arguments of the `onFinal` invocations of a trace, in order. -/
def finalsOf : List CbEvent → List (List Char)
  | [] => []
  | .final s :: r => s :: finalsOf r
  | _ :: r => finalsOf r

/-- The number of `onStart` invocations of a trace. -/
def countStart : List CbEvent → Nat
  | [] => 0
  | .start :: r => countStart r + 1
  | _ :: r => countStart r

/-- The last event of a trace. -/
def lastEv : List CbEvent → Option CbEvent
  | [] => none
  | [e] => some e
  | _ :: r => lastEv r

/-- The non-empty tokens of the input, in arrival order. -/
def nonEmptyTokens : List StreamItem → List (List Char)
  | [] => []
  | .token t :: r => if t = [] then nonEmptyTokens r else t :: nonEmptyTokens r
  | .endOfMessage :: r => nonEmptyTokens r

/-- The concatenation of all tokens of the input. -/
def textOf : List StreamItem → List Char
  | [] => []
  | .token t :: rest => t ++ textOf rest
  | .endOfMessage :: rest => textOf rest

/-- The per-message texts: one entry per message boundary, carrying the
concatenated tokens of that message. -/
def msgTexts (accMsg : List Char) : List StreamItem → List (List Char)
  | [] => []
  | .token t :: rest => msgTexts (accMsg ++ t) rest
  | .endOfMessage :: rest => accMsg :: msgTexts [] rest

/-! ## The AIStream error path

Modelled from the spec (§4.2 failure clause, `AIStream` in `index.d.ts`): a
2xx response is processed by the standard pipeline (whose decoded events are
a parameter here); a non-2xx response yields a single `error` event carrying
the decoded body text instead of raising a fault. -/

structure HttpResponse where
  status : Nat
  body : List Char

inductive AIStreamEvent where
  | text (s : List Char)
  | error (s : List Char)
deriving DecidableEq

/-- A thrown fault is `Except.error`; a well-formed output sequence is
`Except.ok`. -/
def AIStream (response : HttpResponse) (okEvents : List AIStreamEvent) :
    Except (List Char) (List AIStreamEvent) :=
  if 200 ≤ response.status ∧ response.status < 300 then .ok okEvents
  else .ok [.error response.body]

/-! ## The side-channel data buffer

Modelled from the spec (§4.6, `experimental_StreamData` in `index.d.ts`):
`append` fails after close; `close` flushes the buffered values as `data`
stream parts into the sink, marks the buffer closed and resolves the
closed-state promise exactly once; a second `close` is a no-op. -/

structure StreamDataState where
  isClosed : Bool
  data : List JSON
  sink : List StreamPart
  closedResolveCount : Nat

inductive BufferStateError where
  | appendAfterClose
deriving DecidableEq

def streamDataInit : StreamDataState := ⟨false, [], [], 0⟩

def appendData (st : StreamDataState) (v : JSON) : Except BufferStateError StreamDataState :=
  if st.isClosed then .error .appendAfterClose
  else .ok { st with data := st.data ++ [v] }

def closeData (st : StreamDataState) : StreamDataState :=
  if st.isClosed then st
  else { isClosed := true, data := [],
         sink := st.sink ++ (if st.data.isEmpty then [] else [StreamPart.data st.data]),
         closedResolveCount := st.closedResolveCount + 1 }

/-! ## The event-source transformer

Modelled from the spec (§4.3, `createEventStreamTransformer` in
`index.d.ts`): lines are scanned; a `data:` line (with one optional leading
space after the colon, as in event-source framing) contributes its payload to
the buffered value; an empty line dispatches the buffered value as one
complete event; the literal `[DONE]` sentinel terminates the sequence without
being forwarded; other lines are comment/keep-alive lines. -/

def dataPayload (line : List Char) : Option (List Char) :=
  match line with
  | 'd' :: 'a' :: 't' :: 'a' :: ':' :: rest =>
    some (match rest with | ' ' :: r => r | _ => rest)
  | _ => none

def joinBuf : Option (List Char) → List Char → List Char
  | none, p => p
  | some v, p => v ++ '\n' :: p

def sseRun (buf : Option (List Char)) : List (List Char) → List (List Char)
  | [] => []
  | line :: rest =>
    if line = [] then
      match buf with
      | some v => if v = "[DONE]".toList then [] else v :: sseRun none rest
      | none => sseRun none rest
    else
      match dataPayload line with
      | some p => sseRun (some (joinBuf buf p)) rest
      | none => sseRun buf rest

def createEventStreamTransformer (lines : List (List Char)) : List (List Char) :=
  sseRun none lines

/-- A `data:` line carrying the payload `v` (with the conventional single
space after the colon). -/
def dataLine (v : List Char) : List Char := 'd' :: 'a' :: 't' :: 'a' :: ':' :: ' ' :: v

/-- The event-source framing of a sequence of event payloads: one `data:`
line followed by the empty dispatch line per event. -/
def eventLines (vs : List (List Char)) : List (List Char) :=
  vs.flatMap fun v => [dataLine v, []]

/-! ## The use-assistant hook

Embedded from `packages/core/react/use-assistant.ts` (the one implementation
file under src): `submitMessage` and `callApi` of `experimental_useAssistant`.
React state cells become a `HookState` record; the decoded stream of
`readDataStream` becomes a list of `StreamPart`s optionally terminated by a
reader/decoder exception; a thrown exception is the second component of the
result. -/

inductive Role where
  | system | user | assistant | function | data | tool
deriving DecidableEq

structure Msg where
  id : List Char
  role : Role
  content : List Char
  msgData : Option JSON

inductive JSException where
  | typeError        -- reading `content[0].text.value` of an empty content array
  | emptyBody        -- `Error('The response body is empty.')`
  | decodeError (e : ProtocolError)   -- a failure raised by `readDataStream`

/-- What the hook stores in its `error` state cell: either the value of a
decoded `error` part, or a caught exception. -/
inductive HookError where
  | partError (s : List Char)
  | thrown (e : JSException)

inductive AssistantStatus where
  | inProgress | awaitingMessage
deriving DecidableEq

structure HookState where
  messages : List Msg
  input : List Char
  threadId : Option (List Char)
  status : AssistantStatus
  error : Option HookError

/-- `assistant_control_data` case: set the id of the last message, if any. -/
def setLastId (msgs : List Msg) (mid : List Char) : List Msg :=
  match msgs.getLast? with
  | some lastMessage => msgs.dropLast ++ [{ lastMessage with id := mid }]
  | none => msgs

/-- One iteration of the `for await … switch (type)` loop of `callApi`;
`Except.error` is a thrown exception (caught by the surrounding `try`). -/
def processPart (s : HookState) (p : StreamPart) : Except JSException HookState :=
  match p with
  | .assistantMessage m =>
    match m.contentTexts with
    | [] => .error .typeError
    | t :: _ => .ok { s with messages := s.messages ++ [⟨m.id, .assistant, t, none⟩] }
  | .dataMessage id d =>
    .ok { s with messages := s.messages ++ [⟨id.getD [], .data, [], some d⟩] }
  | .assistantControlData threadId messageId =>
    .ok { s with threadId := some threadId,
                 messages := setLastId s.messages messageId }
  | .error v => .ok { s with error := some (.partError v) }
  | _ => .ok s

/-- The `try { for await … } catch (error) { setError(error) }` block: the
parts are processed in order; a throw from the loop body, or the terminal
fault of the reader, is caught and stored in the error state. -/
def runLoop (s : HookState) : List StreamPart → Option JSException → HookState
  | [], none => s
  | [], some e => { s with error := some (.thrown e) }
  | p :: rest, f => 
    match processPart s p with
    | .ok next => runLoop next rest f
    | .error e => { s with error := some (.thrown e) }

/-- The decoded response stream: the parts yielded by `readDataStream`,
optionally terminated by an exception raised while reading or decoding. -/
structure DecodedStream where
  parts : List StreamPart
  fault : Option JSException

/-- `callApi` after the fetch resolved: `none` models a null response body
(the guard throws before the `try` block); otherwise the loop runs and the
status is set back afterwards.  The second component is the exception
propagated to the caller, if any. -/
def callApi (s : HookState) (body : Option DecodedStream) :
    HookState × Option JSException :=
  match body with
  | none => (s, some .emptyBody)
  | some ds => ({ runLoop s ds.parts ds.fault with status := .awaitingMessage }, none)

/-- The request payload sent by `callApi` (the fields the claims are
about). -/
structure ApiRequest where
  threadId : Option (List Char)
  message : List Char

/-- The observable effects of `submitMessage`, in program order. -/
inductive HookAction where
  | setStatus (st : AssistantStatus)
  | appendMessage (m : Msg)
  | setInput (s : List Char)
  | issueRequest (r : ApiRequest)

/-- `submitMessage`: returns with no effects when the input is empty;
otherwise sets the status, appends the user message, resets the input, and
calls `callApi` (which issues the fetch with `message: input`, the render
closure's value of the input). -/
def submitMessage (threadIdParam : Option (List Char)) (s : HookState) : List HookAction :=
  if s.input = [] then []
  else
    [.setStatus .inProgress,
     .appendMessage ⟨[], .user, s.input, none⟩,
     .setInput [],
     .issueRequest ⟨(threadIdParam.orElse fun _ => s.threadId), s.input⟩]

def applyAction (s : HookState) : HookAction → HookState
  | .setStatus st => { s with status := st }
  | .appendMessage m => { s with messages := s.messages ++ [m] }
  | .setInput i => { s with input := i }
  | .issueRequest _ => s

def applyActions (s : HookState) (acts : List HookAction) : HookState :=
  acts.foldl applyAction s

def requestsOf (acts : List HookAction) : List ApiRequest :=
  acts.filterMap fun a => match a with | .issueRequest r => some r | _ => none

def appendsOf (acts : List HookAction) : List Msg :=
  acts.filterMap fun a => match a with | .appendMessage m => some m | _ => none

/-! ## Correctness lemmas for the callbacks transformer -/

theorem cbLoop_ne_nil (items : List StreamItem) :
    ∀ accMsg accAll, cbLoop accMsg accAll items ≠ [] := by
  induction items with
  | nil => intro a b; simp [cbLoop]
  | cons i rest ih =>
    intro a b
    cases i with
    | token t =>
      simp only [cbLoop]
      intro h
      rcases List.append_eq_nil.1 h with ⟨_, h2⟩
      exact ih _ _ h2
    | endOfMessage => simp [cbLoop]

theorem lastEv_cons_of_ne_nil (e : CbEvent) (l : List CbEvent) (h : l ≠ []) :
    lastEv (e :: l) = lastEv l := by
  cases l with
  | nil => exact absurd rfl h
  | cons e' r => rfl

theorem cbLoop_tokens (items : List StreamItem) :
    ∀ a b, tokensOf (cbLoop a b items) = nonEmptyTokens items := by
  induction items with
  | nil => intro a b; simp [cbLoop, tokensOf, nonEmptyTokens]
  | cons i rest ih =>
    intro a b
    cases i with
    | token t =>
      by_cases ht : t = [] <;>
        simp [cbLoop, ht, tokensOf, nonEmptyTokens, ih]
    | endOfMessage => simp [cbLoop, tokensOf, nonEmptyTokens, ih]

theorem cbLoop_completions (items : List StreamItem) :
    ∀ a b, completionsOf (cbLoop a b items) = msgTexts a items := by
  induction items with
  | nil => intro a b; simp [cbLoop, completionsOf, msgTexts]
  | cons i rest ih =>
    intro a b
    cases i with
    | token t =>
      by_cases ht : t = []
      · subst ht; simp [cbLoop, completionsOf, msgTexts, ih]
      · simp [cbLoop, ht, completionsOf, msgTexts, ih]
    | endOfMessage => simp [cbLoop, completionsOf, msgTexts, ih]

theorem cbLoop_finals (items : List StreamItem) :
    ∀ a b, finalsOf (cbLoop a b items) = [b ++ textOf items] := by
  induction items with
  | nil => intro a b; simp [cbLoop, finalsOf, textOf]
  | cons i rest ih =>
    intro a b
    cases i with
    | token t =>
      by_cases ht : t = []
      · subst ht; simp [cbLoop, finalsOf, textOf, ih]
      · simp [cbLoop, ht, finalsOf, textOf, ih]
    | endOfMessage => simp [cbLoop, finalsOf, textOf, ih]

theorem cbLoop_last (items : List StreamItem) :
    ∀ a b, lastEv (cbLoop a b items) = some (.final (b ++ textOf items)) := by
  induction items with
  | nil => intro a b; simp [cbLoop, lastEv, textOf]
  | cons i rest ih =>
    intro a b
    cases i with
    | token t =>
      by_cases ht : t = []
      · subst ht
        simp only [cbLoop, if_true, eq_self_iff_true, List.nil_append]
        rw [ih]
        simp [textOf]
      · simp only [cbLoop, if_neg ht, List.singleton_append]
        rw [lastEv_cons_of_ne_nil _ _ (cbLoop_ne_nil rest _ _), ih]
        simp [textOf]
    | endOfMessage =>
      simp only [cbLoop]
      rw [lastEv_cons_of_ne_nil _ _ (cbLoop_ne_nil rest _ _), ih]
      simp [textOf]

theorem cbLoop_countStart (items : List StreamItem) :
    ∀ a b, countStart (cbLoop a b items) = 0 := by
  induction items with
  | nil => intro a b; simp [cbLoop, countStart]
  | cons i rest ih =>
    intro a b
    cases i with
    | token t =>
      by_cases ht : t = [] <;> simp [cbLoop, ht, countStart, ih]
    | endOfMessage => simp [cbLoop, countStart, ih]

/-! ## Support lemmas for the use-assistant hook -/

/-- Whether processing the part throws in the loop body (only an
`assistant_message` whose `content` array is empty does: the code reads
`value.content[0].text.value`). -/
def partThrows : StreamPart → Bool
  | .assistantMessage m => m.contentTexts.isEmpty
  | _ => false

theorem processPart_ok (s : HookState) (p : StreamPart) (h : partThrows p = false) :
    ∃ s', processPart s p = .ok s' := by
  cases p with
  | assistantMessage m =>
    cases hm : m.contentTexts with
    | nil => simp [partThrows, hm] at h
    | cons t ts =>
      refine ⟨{ s with messages := s.messages ++ [⟨m.id, .assistant, t, none⟩] }, ?_⟩
      simp [processPart, hm]
  | text s => exact ⟨_, rfl⟩
  | functionCall fc => exact ⟨_, rfl⟩
  | data vs => exact ⟨_, rfl⟩
  | error v => exact ⟨_, rfl⟩
  | assistantControlData t m => exact ⟨_, rfl⟩
  | dataMessage i d => exact ⟨_, rfl⟩
  | toolCalls cs => exact ⟨_, rfl⟩

theorem runLoop_fault (parts : List StreamPart) :
    ∀ s e, (∀ p ∈ parts, partThrows p = false) →
      (runLoop s parts (some e)).error = some (.thrown e) := by
  induction parts with
  | nil => intro s e _; rfl
  | cons p rest ih =>
    intro s e h
    obtain ⟨s', hs'⟩ := processPart_ok s p (h p (List.mem_cons_self ..))
    simp only [runLoop, hs']
    exact ih s' e (fun q hq => h q (List.mem_cons_of_mem _ hq))

/-! ## Support lemmas for the event-source transformer -/

theorem dataPayload_dataLine (v : List Char) : dataPayload (dataLine v) = some v := rfl

theorem dataLine_ne_nil (v : List Char) : dataLine v ≠ [] := by simp [dataLine]

theorem sseRun_eventLines (events : List (List Char)) :
    ∀ x, (∀ v ∈ events, v ≠ "[DONE]".toList) →
      sseRun none (eventLines events ++ x) = events ++ sseRun none x := by
  induction events with
  | nil => intro x _; simp [eventLines]
  | cons v vs ih =>
    intro x h
    have hv : v ≠ "[DONE]".toList := h v (List.mem_cons_self ..)
    have hx := ih x (fun u hu => h u (List.mem_cons_of_mem _ hu))
    have hv2 : v ≠ ['[', 'D', 'O', 'N', 'E', ']'] := hv
    simp only [eventLines, List.flatMap_cons, List.cons_append, List.append_assoc]
    simp only [eventLines] at hx
    simp [sseRun, dataPayload_dataLine, dataLine_ne_nil, joinBuf, hv2, hx]

/-! ## The claims -/

/-- Claim C1: for every StreamPart variant (text, function_call, data, error,
assistant_message, assistant_control_data, data_message, tool_calls),
decoding an encoded part returns the original part: decoding the full encoded
record `<code>:<JSON-serialized value>\n` yields exactly the original
part. -/
theorem claim_C1_roundtrip (p : StreamPart) : decodeAll (encodeText p) = .ok [p] := by
  rw [decodeAll]
  exact decodeChunks_encoded [p] [encodeText p] (by simp)

/-- Claim C2: for every finite sequence of encoded StreamPart lines and every
way of splitting the concatenated byte sequence into chunks at arbitrary byte
boundaries, feeding the chunks in order to the decoder yields exactly the
original ordered sequence of parts. -/
theorem claim_C2_chunk_independence (parts : List StreamPart)
    (chunks : List (List Char)) (h : chunks.flatten = parts.flatMap encodeText) :
    decodeChunks chunks = .ok parts :=
  decodeChunks_encoded parts chunks h

/-- Witness for C2: the spec scenario `0:"Hello"\n0:" world"\n`, split at
byte boundaries that cut both lines. -/
theorem claim_C2_witness :
    (["0:\"He".toList, "llo\"\n0:\" world\"".toList, "\n".toList].flatten =
      [StreamPart.text "Hello".toList, StreamPart.text " world".toList].flatMap
        encodeText) ∧
    decodeChunks ["0:\"He".toList, "llo\"\n0:\" world\"".toList, "\n".toList] =
      .ok [StreamPart.text "Hello".toList, StreamPart.text " world".toList] :=
  ⟨by decide, claim_C2_chunk_independence _ _ (by decide)⟩

/-- Claim C3: for every stream processed by the callbacks transformer,
`onStart` is invoked exactly once and before anything else; `onToken` is
invoked once per non-empty token in arrival order; `onCompletion` is invoked
once per completed logical message with that message's text; and `onFinal` is
invoked exactly once, as the last callback, with the full concatenated
text.  The trace is a function of the input, so the order is deterministic
for identical input. -/
theorem claim_C3_callback_order (items : List StreamItem) :
    (createCallbacksTransformer items).head? = some .start ∧
    countStart (createCallbacksTransformer items) = 1 ∧
    tokensOf (createCallbacksTransformer items) = nonEmptyTokens items ∧
    completionsOf (createCallbacksTransformer items) = msgTexts [] items ∧
    finalsOf (createCallbacksTransformer items) = [textOf items] ∧
    lastEv (createCallbacksTransformer items) = some (.final (textOf items)) := by
  refine ⟨rfl, ?_, ?_, ?_, ?_, ?_⟩
  · simp [createCallbacksTransformer, countStart, cbLoop_countStart]
  · simp [createCallbacksTransformer, tokensOf, cbLoop_tokens]
  · simp [createCallbacksTransformer, completionsOf, cbLoop_completions]
  · simp [createCallbacksTransformer, finalsOf, cbLoop_finals]
  · rw [createCallbacksTransformer,
      lastEv_cons_of_ne_nil _ _ (cbLoop_ne_nil items [] []), cbLoop_last]
    simp

/-- Claim C4: for every provider HTTP response with a non-2xx status, the
adapter's output stream consists of exactly one error event carrying the
decoded response body text, contains no text parts, and the adapter does not
raise a thrown fault (the result is `Except.ok`). -/
theorem claim_C4_non2xx_error (resp : HttpResponse) (okEvents : List AIStreamEvent)
    (h : ¬ (200 ≤ resp.status ∧ resp.status < 300)) :
    AIStream resp okEvents = .ok [.error resp.body] ∧
    ∀ out, AIStream resp okEvents = .ok out →
      out.length = 1 ∧ ∀ s, AIStreamEvent.text s ∉ out := by
  have h1 : AIStream resp okEvents = .ok [.error resp.body] := by
    rw [AIStream, if_neg h]
  refine ⟨h1, fun out hout => ?_⟩
  rw [h1] at hout
  injection hout with h2
  subst h2
  refine ⟨rfl, fun s hs => ?_⟩
  simp at hs

/-- Witness for C4: a 429 response with body `rate limited` yields the single
error part `rate limited`. -/
theorem claim_C4_witness :
    (¬ (200 ≤ 429 ∧ 429 < 300)) ∧
    AIStream ⟨429, "rate limited".toList⟩ [] = .ok [.error "rate limited".toList] :=
  ⟨by decide, (claim_C4_non2xx_error ⟨429, "rate limited".toList⟩ [] (by decide)).1⟩

/-- Claim C5: appending to the side-channel buffer after `close()` throws a
`BufferStateError` (and, being a failure, changes no state, so flushed data
is not corrupted); `close()` flushes the buffered values as `data` stream
parts, marks the buffer closed and resolves the closed-state promise exactly
once; a second `close()` is a no-op, not an error. -/
theorem claim_C5_streamdata (st : StreamDataState) (v : JSON) :
    (st.isClosed = true → appendData st v = .error .appendAfterClose) ∧
    closeData (closeData st) = closeData st ∧
    (st.isClosed = false →
      (closeData st).isClosed = true ∧
      (closeData st).closedResolveCount = st.closedResolveCount + 1 ∧
      (closeData st).sink =
        st.sink ++ (if st.data.isEmpty then [] else [StreamPart.data st.data])) ∧
    (st.isClosed = true → closeData st = st) := by
  by_cases h : st.isClosed = true
  · refine ⟨fun _ => ?_, ?_, fun hf => ?_, fun _ => ?_⟩
    · simp [appendData, h]
    · simp [closeData, h]
    · rw [h] at hf; cases hf
    · simp [closeData, h]
  · have h' : st.isClosed = false := by simpa using h
    refine ⟨fun ht => ?_, ?_, fun _ => ?_, fun ht => ?_⟩
    · rw [h'] at ht; cases ht
    · simp [closeData, h']
    · simp [closeData, h']
    · rw [h'] at ht; cases ht

/-- Witness for C5: appending to a closed buffer fails; closing the fresh
buffer resolves once and a second close is the identity. -/
theorem claim_C5_witness :
    appendData ⟨true, [], [], 1⟩ JSON.null = .error .appendAfterClose ∧
    closeData (closeData streamDataInit) = closeData streamDataInit ∧
    (closeData streamDataInit).isClosed = true ∧
    (closeData streamDataInit).closedResolveCount = 1 := by
  have h := claim_C5_streamdata streamDataInit JSON.null
  have h2 := claim_C5_streamdata ⟨true, [], [], 1⟩ JSON.null
  refine ⟨h2.1 rfl, h.2.1, (h.2.2.1 rfl).1, ?_⟩
  simpa using (h.2.2.1 rfl).2.1

/-- Counterexample for C6 as stated: the claim says every line not starting
with the `data:` prefix is ignored, but an empty line (which does not start
with `data:`) is not ignored — when a value is buffered it dispatches that
value, so removing the empty line changes the output. -/
theorem claim_C6_counterexample :
    ¬ (∀ (buf : Option (List Char)) (line : List Char) (rest : List (List Char)),
        dataPayload line = none → sseRun buf (line :: rest) = sseRun buf rest) := by
  intro h
  have hx := h (some ['x']) [] [] rfl
  simp [sseRun] at hx

/-- Claim C6 (amended): when an event whose payload is the literal `[DONE]`
sentinel is dispatched, the output sequence terminates, no further decoded
values are produced and the sentinel itself is not forwarded; and every
NON-EMPTY line not starting with the `data:` prefix is ignored (an empty line
is itself never forwarded nor an error, but it dispatches the buffered
event). -/
theorem claim_C6_amended (events : List (List Char)) (post : List (List Char))
    (h : ∀ v ∈ events, v ≠ "[DONE]".toList) :
    createEventStreamTransformer
        (eventLines events ++ (dataLine "[DONE]".toList :: [] :: post)) = events ∧
    (∀ (buf : Option (List Char)) (line : List Char) (rest : List (List Char)),
        line ≠ [] → dataPayload line = none →
        sseRun buf (line :: rest) = sseRun buf rest) := by
  constructor
  · rw [createEventStreamTransformer, sseRun_eventLines events _ h]
    simp [sseRun, dataPayload_dataLine, dataLine_ne_nil, joinBuf]
  · intro buf line rest hne hnp
    simp [sseRun, hne, hnp]

/-- Witness for C6 (amended): two events are forwarded, the `[DONE]` sentinel
terminates, and the event lines after it are not decoded. -/
theorem claim_C6_witness :
    (∀ v ∈ [['a'], ['b']], v ≠ "[DONE]".toList) ∧
    createEventStreamTransformer
        (eventLines [['a'], ['b']] ++ (dataLine "[DONE]".toList :: [] ::
          [dataLine ['z'], []])) = [['a'], ['b']] :=
  ⟨by decide, (claim_C6_amended [['a'], ['b']] [dataLine ['z'], []] (by decide)).1⟩

/-- Claim C7: a malformed line (unknown code, or a value not matching the
variant's shape) makes the decoder fail with a `ProtocolError` propagated to
the caller, aborting further decoding; and a stream that ends with a
non-empty partial line lacking the trailing newline delimiter is a decode
error, not silently dropped. -/
theorem claim_C7_protocol_errors :
    (∀ (parts : List StreamPart) (bad post : List Char) (e : ProtocolError),
        '\n' ∉ bad → decodeLineE bad = .error e →
        decodeAll (parts.flatMap encodeText ++ (bad ++ '\n' :: post)) = .error e) ∧
    (∀ (parts : List StreamPart) (t : List Char), t ≠ [] → '\n' ∉ t →
        decodeAll (parts.flatMap encodeText ++ t) = .error .incompleteLine) :=
  ⟨decodeAll_malformed, decodeAll_incomplete⟩

/-- Witness for C7: the unknown code `9` aborts decoding with an error even
though a well-formed line follows, and a stream ending in the partial line
`0:"tr` is an error. -/
theorem claim_C7_witness :
    ('\n' ∉ "9:1".toList) ∧ decodeLineE "9:1".toList = .error .unknownCode ∧
    decodeAll ([StreamPart.text ['x']].flatMap encodeText ++
      ("9:1".toList ++ '\n' :: "0:\"y\"\n".toList)) = .error .unknownCode ∧
    ("0:\"tr".toList ≠ []) ∧ ('\n' ∉ "0:\"tr".toList) ∧
    decodeAll ([StreamPart.text ['x']].flatMap encodeText ++ "0:\"tr".toList) =
      .error .incompleteLine :=
  ⟨by decide, by rfl,
    claim_C7_protocol_errors.1 [StreamPart.text ['x']] _ _ _ (by decide) (by rfl),
    by decide, by decide,
    claim_C7_protocol_errors.2 [StreamPart.text ['x']] _ (by decide) (by decide)⟩

/-- Claim C8: in the assistant UI-state loop, a decoded part of type `error`
is stored in the hook's error state (touching no other state cell, in
particular leaving the message list intact), and processing it does not
terminate the decode loop: the remaining parts are processed (and appended)
exactly as they would be from the error-updated state. -/
theorem claim_C8_error_part (s : HookState) (e : List Char) (post : List StreamPart)
    (f : Option JSException) :
    processPart s (.error e) = .ok { s with error := some (.partError e) } ∧
    runLoop s (.error e :: post) f =
      runLoop { s with error := some (.partError e) } post f := ⟨rfl, rfl⟩

/-- Claim C9: `submitMessage` with empty input returns immediately — it
performs no effects at all, so no HTTP request is issued and every state cell
is unchanged; with non-empty input it appends exactly one user message with
id `""` and content equal to the input, does so before issuing the request,
and resets the input to the empty string. -/
theorem claim_C9_submit_message (s : HookState) (tid : Option (List Char)) :
    (s.input = [] →
      submitMessage tid s = [] ∧ applyActions s (submitMessage tid s) = s) ∧
    (s.input ≠ [] →
      appendsOf (submitMessage tid s) = [⟨[], .user, s.input, none⟩] ∧
      requestsOf (submitMessage tid s) =
        [⟨(tid.orElse fun _ => s.threadId), s.input⟩] ∧
      (∃ pre post, submitMessage tid s =
          pre ++ .appendMessage ⟨[], .user, s.input, none⟩ :: post ∧
          requestsOf pre = [] ∧
          HookAction.issueRequest ⟨(tid.orElse fun _ => s.threadId), s.input⟩ ∈ post) ∧
      (applyActions s (submitMessage tid s)).input = [] ∧
      (applyActions s (submitMessage tid s)).messages =
        s.messages ++ [⟨[], .user, s.input, none⟩]) := by
  constructor
  · intro h
    simp [submitMessage, h, applyActions]
  · intro h
    refine ⟨?_, ?_, ?_, ?_, ?_⟩
    · simp [submitMessage, h, appendsOf]
    · simp [submitMessage, h, requestsOf]
    · refine ⟨[.setStatus .inProgress],
        [.setInput [], .issueRequest ⟨(tid.orElse fun _ => s.threadId), s.input⟩],
        ?_, ?_, ?_⟩
      · simp [submitMessage, h]
      · simp [requestsOf]
      · simp
    · simp [submitMessage, h, applyActions, applyAction]
    · simp [submitMessage, h, applyActions, applyAction]

/-- Witness for C9: the empty-input call is a no-op; the call with input
`hi` appends the user message and clears the input. -/
theorem claim_C9_witness :
    submitMessage none ⟨[], [], none, .awaitingMessage, none⟩ = [] ∧
    appendsOf (submitMessage none ⟨[], "hi".toList, none, .awaitingMessage, none⟩) =
      [⟨[], .user, "hi".toList, none⟩] ∧
    (applyActions ⟨[], "hi".toList, none, .awaitingMessage, none⟩
      (submitMessage none ⟨[], "hi".toList, none, .awaitingMessage, none⟩)).input = [] := by
  have h := (claim_C9_submit_message
    ⟨[], "hi".toList, none, .awaitingMessage, none⟩ none).2 (by decide)
  exact ⟨((claim_C9_submit_message
    ⟨[], [], none, .awaitingMessage, none⟩ none).1 rfl).1, h.1, h.2.2.2.1⟩

/-- Claim C10: for a resolved fetch with a non-null body, exceptions raised
while reading or decoding the stream are caught and stored in the error
state, never propagated to the caller, and the status is set back to
`awaiting_message` after the stream is consumed on both the success and the
caught-exception path; a null response body throws and leaves all state,
including the status, at its prior value. -/
theorem claim_C10_callapi (s : HookState) (ds : DecodedStream)
    (parts : List StreamPart) (e : JSException) :
    (callApi s (some ds)).2 = none ∧
    (callApi s (some ds)).1.status = .awaitingMessage ∧
    ((∀ p ∈ parts, partThrows p = false) →
      (callApi s (some ⟨parts, some e⟩)).1.error = some (.thrown e) ∧
      (callApi s (some ⟨parts, some e⟩)).2 = none) ∧
    callApi s none = (s, some .emptyBody) := by
  refine ⟨rfl, rfl, fun h => ⟨?_, rfl⟩, rfl⟩
  exact runLoop_fault parts s e h

/-- Witness for C10: a stream of one text part ending in a reader fault
stores the fault, propagates nothing, and resets the status; a null body
propagates the empty-body error with the state unchanged. -/
theorem claim_C10_witness :
    (∀ p ∈ [StreamPart.text ['h']], partThrows p = false) ∧
    (callApi ⟨[], [], none, .inProgress, none⟩
      (some ⟨[StreamPart.text ['h']], some .typeError⟩)).1.error =
        some (.thrown .typeError) ∧
    (callApi ⟨[], [], none, .inProgress, none⟩
      (some ⟨[StreamPart.text ['h']], some .typeError⟩)).2 = none ∧
    callApi ⟨[], [], none, .inProgress, none⟩ none =
      (⟨[], [], none, .inProgress, none⟩, some .emptyBody) := by
  have h := claim_C10_callapi ⟨[], [], none, .inProgress, none⟩
    ⟨[StreamPart.text ['h']], some .typeError⟩ [StreamPart.text ['h']] .typeError
  exact ⟨by decide, (h.2.2.1 (by decide)).1, (h.2.2.1 (by decide)).2, h.2.2.2⟩

end AIProto
